import Mathlib

/-!
Shallow embedding of `src/opstrat/op_quote.py`.

Modelling conventions:
* Calendar dates are `Nat` counting days from a fixed epoch whose day 0 is a
  Monday, so Python's `date.weekday()` (Monday = 0) is `d % 7`.
* The `holidays.CountryHoliday(country)` calendar is an explicit finite
  `List Nat` parameter: membership `current_date in us_holidays` is
  `hol.contains d`.
* Money amounts (strikes, spot prices, premiums) are exact numbers
  `Money := Int`. The script's arithmetic on them is only subtraction,
  negation, `abs`, comparison and equality, so an integer grid at any fixed
  decimal scale embeds it exactly; `abs` is the explicit conditional that
  Python's `abs` computes.
* The `while business_days_count < n` loop is given an explicit fuel
  parameter counting loop iterations; `none` means the fuel ran out before
  the loop exited, so termination is the existence of sufficient fuel.
* The yfinance `Ticker` object is a `Provider` structure holding the
  available expirations and, per expiration, the calls and puts tables.
* A raised `ValueError` is the `Except.error` branch, carrying the message
  data (the offending date and the list of available dates).
* `pandas.concat` on row tables is list append; `df['strike'].unique()` is
  a first-occurrence duplicate removal; Python's `min(xs, key=k)` is a left
  fold keeping the current minimum and replacing it only on a strictly
  smaller key, `none` on the empty list (Python raises there).
-/

namespace Opstrat

/-- `current_date.weekday() < 5 and current_date not in us_holidays`:
day `d` counts as a business day. -/
def qualifies (hol : List Nat) (d : Nat) : Bool :=
  decide (d % 7 < 5) && ! hol.contains d

/-- The `while business_days_count < n` loop of `get_nth_business_day`,
with state `(current_date, business_days_count)` and explicit fuel. -/
def gnbdLoop (hol : List Nat) (n : Nat) : Nat → Nat → Nat → Option Nat
  | 0, d, c => if n ≤ c then some d else none
  | fuel + 1, d, c =>
    if n ≤ c then some d
    else
      gnbdLoop hol n fuel (d + 1) (if qualifies hol (d + 1) then c + 1 else c)

/-- `get_nth_business_day(start_date, n, country)`: advance one day at a
time from `start`, counting only qualifying days, until `n` have been
counted; `fuel` bounds the number of loop iterations. -/
def get_nth_business_day (hol : List Nat) (start n fuel : Nat) : Option Nat :=
  gnbdLoop hol n fuel start 0

/-- Number of qualifying days in the interval `(start, d]`. -/
def countQ (hol : List Nat) (start d : Nat) : Nat :=
  (List.range (d - start)).countP (fun i => qualifies hol (start + 1 + i))

/-- Exact price/strike amounts (see the header comment). -/
abbrev Money := Int

/-- Python's `abs` on an exact amount. -/
def pyAbs (x : Money) : Money :=
  if x < 0 then -x else x

/-- The option type tag added by `get_option_chain`
(`'call'` / `'put'`; also `'c'` / `'p'` in the plot legs). -/
inductive OptType
  | call
  | put
deriving DecidableEq, Repr

/-- One row of the provider's calls or puts table, before tagging. -/
structure RawRow where
  strike : Money
  lastPrice : Money
deriving DecidableEq, Repr

/-- One row of the merged option-chain table, with the derived type field. -/
structure OptionRow where
  strike : Money
  lastPrice : Money
  type : OptType
deriving DecidableEq, Repr

/-- `calls['type'] = 'call'` / `puts['type'] = 'put'`: tag a raw row. -/
def tagRow (t : OptType) (r : RawRow) : OptionRow :=
  ⟨r.strike, r.lastPrice, t⟩

/-- The yfinance `Ticker` collaborator: `ticker.options` and
`ticker.option_chain(date)` returning the `(calls, puts)` tables. -/
structure Provider where
  options : List String
  chain : String → List RawRow × List RawRow

/-- `get_option_chain(ticker_symbol, expiration_date)`: raise `ValueError`
with the offending date and the available dates when the expiration is not
available, otherwise tag and concatenate the calls and puts tables. -/
def get_option_chain (p : Provider) (expiration_date : String) :
    Except (String × List String) (List OptionRow) :=
  if expiration_date ∈ p.options then
    Except.ok ((p.chain expiration_date).1.map (tagRow OptType.call) ++
      (p.chain expiration_date).2.map (tagRow OptType.put))
  else
    Except.error (expiration_date, p.options)

/-- `df['strike'].unique()`: the helper with the already-seen accumulator. -/
def pdUniqueAux : List Money → List Money → List Money
  | [], _ => []
  | x :: xs, seen =>
    if x ∈ seen then pdUniqueAux xs seen else x :: pdUniqueAux xs (x :: seen)

/-- `df['strike'].unique()`: distinct values in order of first appearance. -/
def pdUnique (l : List Money) : List Money :=
  pdUniqueAux l []

/-- The fold of Python `min(xs, key=k)`: keep the current minimum,
replacing it only when a strictly smaller key appears. -/
def pyMinFold (key : Money → Money) (x : Money) (xs : List Money) : Money :=
  xs.foldl (fun best y => if key y < key best then y else best) x

/-- Python `min(xs, key=k)`: `none` on the empty list (Python raises). -/
def pyMin (key : Money → Money) : List Money → Option Money
  | [] => none
  | x :: xs => some (pyMinFold key x xs)

/-- `find_atm_strike(df, spot_price)`: the distinct strike minimizing
`abs(x - spot_price)`. -/
def find_atm_strike (df : List OptionRow) (spot_price : Money) : Option Money :=
  pyMin (fun x => pyAbs (x - spot_price)) (pdUnique (df.map OptionRow.strike))

/-- `get_option_premium(df, strike, opt_type)`: filter on the exact
`(strike, type)` pair, return the first row's `lastPrice`, else `None`. -/
def get_option_premium (df : List OptionRow) (strike : Money) (opt_type : OptType) :
    Option Money :=
  match df.filter (fun r => decide (r.strike = strike) && decide (r.type = opt_type)) with
  | [] => none
  | r :: _ => some r.lastPrice

/-- `tr_type`: `'b'` buy, `'s'` sell. -/
inductive TrType
  | b
  | s
deriving DecidableEq, Repr

/-- One entry of `op_list`:
`\x7b'op_type': ..., 'strike': ..., 'tr_type': ..., 'op_pr': ...\x7d`. -/
structure Leg where
  op_type : OptType
  strike : Money
  tr_type : TrType
  op_pr : Money
deriving DecidableEq, Repr

/-- `plot_iron_butterfly(ticker_symbol, expiration_date, atm_strike, width)`:
returns the pair handed to `op.basic_multi.multi_plotter(spot, op_list)`.
The placeholder premiums `5.0`, `5.0`, `2.0`, `2.0` are the exact amounts
`5`, `5`, `2`, `2`. -/
def plot_iron_butterfly (ticker_symbol expiration_date : String)
    (atm_strike : Money) (width : Money) : Money × List Leg :=
  let premium_atm_call : Money := 5
  let premium_atm_put : Money := 5
  let premium_wing_call : Money := 2
  let premium_wing_put : Money := 2
  (atm_strike,
    [⟨OptType.call, atm_strike, TrType.s, premium_atm_call⟩,
     ⟨OptType.put, atm_strike, TrType.s, premium_atm_put⟩,
     ⟨OptType.call, atm_strike + width, TrType.b, premium_wing_call⟩,
     ⟨OptType.put, atm_strike - width, TrType.b, premium_wing_put⟩])

/-- Render an exact amount as the `:.2f` format specifier does (integer
amounts print with two zero decimals). -/
def fmt2 (q : Money) : String :=
  toString q ++ ".00"

/-- Applying the `:.2f` format specifier to a looked-up premium: a `None`
premium makes the f-string raise `TypeError` (`Except.error`). -/
def formatFixed2 : Option Money → Except Unit String
  | some q => Except.ok (fmt2 q)
  | none => Except.error ()

/-- Steps 6–7 of `main`: look up the four leg premiums, format each with
`:.2f` for the report, then call `plot_iron_butterfly`. The result carries
the four formatted premium strings and the plotter's `(spot, op_list)`. -/
def mainTail (df : List OptionRow) (atm_strike width : Money) :
    Except Unit (List String × (Money × List Leg)) := do
  let premium_atm_call := get_option_premium df atm_strike OptType.call
  let premium_atm_put := get_option_premium df atm_strike OptType.put
  let premium_wing_call := get_option_premium df (atm_strike + width) OptType.call
  let premium_wing_put := get_option_premium df (atm_strike - width) OptType.put
  let s1 ← formatFixed2 premium_atm_call
  let s2 ← formatFixed2 premium_atm_put
  let s3 ← formatFixed2 premium_wing_call
  let s4 ← formatFixed2 premium_wing_put
  pure ([s1, s2, s3, s4], plot_iron_butterfly "KR" "2025-06-20" atm_strike width)

/-- Sample provider for concrete checks: ticker with two expirations. -/
def pABC : Provider :=
  ⟨["2025-06-20", "2025-07-18"], fun _ => ([⟨100, 5⟩], [⟨95, 4⟩])⟩

/-- Sample chain table with strikes 90, 95, 100, 105, 110. -/
def dfSpec : List OptionRow :=
  [⟨90, 1, OptType.call⟩, ⟨95, 2, OptType.call⟩, ⟨100, 3, OptType.call⟩,
   ⟨105, 4, OptType.call⟩, ⟨110, 5, OptType.call⟩]

/-- Sample chain table whose strikes 99 and 103 are equidistant from 101. -/
def dfTie : List OptionRow :=
  [⟨99, 1, OptType.call⟩, ⟨103, 2, OptType.put⟩]

/-- Sample chain table with one call row and one put row at strike 100. -/
def dfCP : List OptionRow :=
  [⟨100, 7, OptType.call⟩, ⟨100, 9, OptType.put⟩]

/-- Claim C3: `get_option_chain` raises the unavailable-expiration error,
carrying the full list of available expirations, exactly when the requested
date is not among the provider's expirations; otherwise it returns the
chain. -/
theorem get_option_chain_error_iff (p : Provider) (e : String) :
    (e ∉ p.options → get_option_chain p e = Except.error (e, p.options)) ∧
    (e ∈ p.options → ∃ df, get_option_chain p e = Except.ok df) := by
  constructor
  · intro h
    simp [get_option_chain, h]
  · intro h
    exact ⟨(p.chain e).1.map (tagRow OptType.call) ++
      (p.chain e).2.map (tagRow OptType.put), by simp [get_option_chain, h]⟩

/-- Witness for C3 at the spec's scenario: expirations
`["2025-06-20", "2025-07-18"]`; requesting `"2099-01-01"` fails with the
error listing both dates, requesting `"2025-06-20"` succeeds. -/
theorem get_option_chain_error_iff_witness :
    get_option_chain pABC "2099-01-01" =
      Except.error ("2099-01-01", ["2025-06-20", "2025-07-18"]) ∧
    ∃ df, get_option_chain pABC "2025-06-20" = Except.ok df :=
  ⟨(get_option_chain_error_iff pABC "2099-01-01").1 (by decide),
   (get_option_chain_error_iff pABC "2025-06-20").2 (by decide)⟩

/-- Claim C8: every row of a successfully fetched chain carries the derived
type field of the group it came from, and the merged table is the calls (in
provider order) followed by the puts (in provider order). -/
theorem get_option_chain_rows_tagged_ordered (p : Provider) (e : String)
    (df : List OptionRow) (h : get_option_chain p e = Except.ok df) :
    ∃ cs ps, df = cs ++ ps ∧
      cs = (p.chain e).1.map (tagRow OptType.call) ∧
      ps = (p.chain e).2.map (tagRow OptType.put) ∧
      (∀ r ∈ cs, r.type = OptType.call) ∧ (∀ r ∈ ps, r.type = OptType.put) := by
  by_cases he : e ∈ p.options
  · rw [get_option_chain, if_pos he] at h
    have hdf : df = (p.chain e).1.map (tagRow OptType.call) ++
        (p.chain e).2.map (tagRow OptType.put) := by
      injection h with h2
      exact h2.symm
    subst hdf
    refine ⟨(p.chain e).1.map (tagRow OptType.call),
      (p.chain e).2.map (tagRow OptType.put), rfl, rfl, rfl, ?_, ?_⟩
    · intro r hr
      obtain ⟨a, _, ha⟩ := List.mem_map.mp hr
      rw [← ha]
      rfl
    · intro r hr
      obtain ⟨a, _, ha⟩ := List.mem_map.mp hr
      rw [← ha]
      rfl
  · rw [get_option_chain, if_neg he] at h
    exact absurd h (by simp)

/-- Witness for C8 at the sample provider: one call row at 100, one put row
at 95. -/
theorem get_option_chain_rows_tagged_ordered_witness :
    ∃ cs ps, [⟨100, 5, OptType.call⟩, ⟨95, 4, OptType.put⟩] = cs ++ ps ∧
      cs = (pABC.chain "2025-06-20").1.map (tagRow OptType.call) ∧
      ps = (pABC.chain "2025-06-20").2.map (tagRow OptType.put) ∧
      (∀ r ∈ cs, r.type = OptType.call) ∧ (∀ r ∈ ps, r.type = OptType.put) :=
  get_option_chain_rows_tagged_ordered pABC "2025-06-20"
    [⟨100, 5, OptType.call⟩, ⟨95, 4, OptType.put⟩] (by rfl)

/-- Claim C5: for every center strike `K` and wing width `w`, the assembler
builds exactly four legs — sell call at `K`, sell put at `K`, buy call at
`K + w`, buy put at `K - w` — and these are what is handed to the external
plotting routine. -/
theorem plot_iron_butterfly_legs_shape (t e : String) (K w : Money) :
    ((plot_iron_butterfly t e K w).2).length = 4 ∧
    ∃ p1 p2 p3 p4, (plot_iron_butterfly t e K w).2 =
      [⟨OptType.call, K, TrType.s, p1⟩, ⟨OptType.put, K, TrType.s, p2⟩,
       ⟨OptType.call, K + w, TrType.b, p3⟩, ⟨OptType.put, K - w, TrType.b, p4⟩] :=
  ⟨rfl, 5, 5, 2, 2, rfl⟩

/-- Claim C6: the leg premiums are the fixed placeholders `5, 5, 2, 2`
whatever the ticker and expiration are, and the spot price handed to the
plotter is the ATM strike itself. -/
theorem plot_iron_butterfly_placeholder_premiums (t e : String) (K w : Money) :
    (plot_iron_butterfly t e K w).1 = K ∧
    ((plot_iron_butterfly t e K w).2).map Leg.op_pr = [5, 5, 2, 2] ∧
    ∀ t' e', plot_iron_butterfly t' e' K w = plot_iron_butterfly t e K w :=
  ⟨rfl, rfl, fun _ _ => rfl⟩

/-- Claim C4: `get_option_premium` returns `none` when no row matches the
`(strike, type)` pair, and the `lastPrice` of the first matching row when at
least one does; the zero-match case is an ordinary return, not a fault. -/
theorem get_option_premium_first_match_or_none (df : List OptionRow)
    (strike : Money) (t : OptType) :
    ((∀ r ∈ df, ¬(r.strike = strike ∧ r.type = t)) →
      get_option_premium df strike t = none) ∧
    (∀ pre r post, df = pre ++ r :: post → r.strike = strike → r.type = t →
      (∀ r2 ∈ pre, ¬(r2.strike = strike ∧ r2.type = t)) →
      get_option_premium df strike t = some r.lastPrice) := by
  constructor
  · intro h
    have hnil : df.filter
        (fun r => decide (r.strike = strike) && decide (r.type = t)) = [] := by
      rw [List.filter_eq_nil]
      intro a ha
      simpa using h a ha
    rw [get_option_premium, hnil]
  · intro pre r post hdf hs ht hpre
    have hfpre : pre.filter
        (fun r2 => decide (r2.strike = strike) && decide (r2.type = t)) = [] := by
      rw [List.filter_eq_nil]
      intro a ha
      simpa using hpre a ha
    rw [get_option_premium, hdf, List.filter_append, hfpre, List.nil_append,
      List.filter_cons]
    simp [hs, ht]

/-- Witness for C4 at a concrete table with a call and a put at strike 100:
looking up `(95, call)` yields `none`, looking up `(100, put)` yields the
(first) matching row's `lastPrice` 9. -/
theorem get_option_premium_first_match_or_none_witness :
    get_option_premium dfCP 95 OptType.call = none ∧
    get_option_premium dfCP 100 OptType.put = some 9 :=
  ⟨(get_option_premium_first_match_or_none dfCP 95 OptType.call).1 (by decide),
   (get_option_premium_first_match_or_none dfCP 100 OptType.put).2
     [⟨100, 7, OptType.call⟩] ⟨100, 9, OptType.put⟩ [] rfl rfl rfl (by decide)⟩

/-- Claim C7: in the top-level flow, if any of the four premium lookups
returns `None`, the `:.2f` premium-formatting step faults and the run ends
in the error branch before the plotting step. -/
theorem mainTail_missing_premium_faults (df : List OptionRow)
    (atm_strike width : Money)
    (h : get_option_premium df atm_strike OptType.call = none ∨
      get_option_premium df atm_strike OptType.put = none ∨
      get_option_premium df (atm_strike + width) OptType.call = none ∨
      get_option_premium df (atm_strike - width) OptType.put = none) :
    mainTail df atm_strike width = Except.error () := by
  rcases h with h | h | h | h
  · unfold mainTail
    rw [h]
    rfl
  · cases h1 : get_option_premium df atm_strike OptType.call <;>
      (unfold mainTail; rw [h1, h]; rfl)
  · cases h1 : get_option_premium df atm_strike OptType.call <;>
      cases h2 : get_option_premium df atm_strike OptType.put <;>
        (unfold mainTail; rw [h1, h2, h]; rfl)
  · cases h1 : get_option_premium df atm_strike OptType.call <;>
      cases h2 : get_option_premium df atm_strike OptType.put <;>
        cases h3 : get_option_premium df (atm_strike + width) OptType.call <;>
          (unfold mainTail; rw [h1, h2, h3, h]; rfl)

/-- Witness for C7: on the empty chain table every lookup is `None` and the
flow ends in the error branch. -/
theorem mainTail_missing_premium_faults_witness :
    mainTail ([] : List OptionRow) 100 10 = Except.error () :=
  mainTail_missing_premium_faults [] 100 10 (Or.inl rfl)

/-- The min-fold returns an element whose key is a lower bound for the seed
and all list elements, and it is the first-encountered minimum: it is the
seed itself, or it splits the list with strictly larger keys before it. -/
theorem pyMinFold_spec (key : Money → Money) :
    ∀ (xs : List Money) (x : Money),
      (key (pyMinFold key x xs) ≤ key x ∧
        ∀ y ∈ xs, key (pyMinFold key x xs) ≤ key y) ∧
      (pyMinFold key x xs = x ∨
        ∃ pre post, xs = pre ++ pyMinFold key x xs :: post ∧
          key (pyMinFold key x xs) < key x ∧
          ∀ y ∈ pre, key (pyMinFold key x xs) < key y) := by
  intro xs
  induction xs with
  | nil =>
    intro x
    exact ⟨⟨le_refl _, by simp⟩, Or.inl rfl⟩
  | cons y ys ih =>
    intro x
    have hstep : pyMinFold key x (y :: ys) =
        pyMinFold key (if key y < key x then y else x) ys := rfl
    by_cases hyx : key y < key x
    · rw [hstep, if_pos hyx]
      obtain ⟨⟨hb1, hb2⟩, hfirst⟩ := ih y
      refine ⟨⟨le_of_lt (lt_of_le_of_lt hb1 hyx), ?_⟩, ?_⟩
      · intro z hz
        rcases List.mem_cons.mp hz with rfl | hz
        · exact hb1
        · exact hb2 z hz
      · rcases hfirst with heq | ⟨pre, post, hsplit, hlt, hpre⟩
        · refine Or.inr ⟨[], ys, ?_, ?_, by simp⟩
          · rw [heq, List.nil_append]
          · rw [heq]
            exact hyx
        · refine Or.inr ⟨y :: pre, post, ?_, lt_trans hlt hyx, ?_⟩
          · rw [List.cons_append]
            exact congrArg (List.cons y) hsplit
          · intro z hz
            rcases List.mem_cons.mp hz with rfl | hz
            · exact hlt
            · exact hpre z hz
    · rw [hstep, if_neg hyx]
      have hxy : key x ≤ key y := le_of_not_lt hyx
      obtain ⟨⟨hb1, hb2⟩, hfirst⟩ := ih x
      refine ⟨⟨hb1, ?_⟩, ?_⟩
      · intro z hz
        rcases List.mem_cons.mp hz with rfl | hz
        · exact le_trans hb1 hxy
        · exact hb2 z hz
      · rcases hfirst with heq | ⟨pre, post, hsplit, hlt, hpre⟩
        · exact Or.inl heq
        · refine Or.inr ⟨y :: pre, post, ?_, hlt, ?_⟩
          · rw [List.cons_append]
            exact congrArg (List.cons y) hsplit
          · intro z hz
            rcases List.mem_cons.mp hz with rfl | hz
            · exact lt_of_lt_of_le hlt hxy
            · exact hpre z hz

/-- The min-fold returns the seed or an element of the list. -/
theorem pyMinFold_mem (key : Money → Money) :
    ∀ (xs : List Money) (x : Money),
      pyMinFold key x xs = x ∨ pyMinFold key x xs ∈ xs := by
  intro xs
  induction xs with
  | nil =>
    intro x
    exact Or.inl rfl
  | cons y ys ih =>
    intro x
    have hstep : pyMinFold key x (y :: ys) =
        pyMinFold key (if key y < key x then y else x) ys := rfl
    by_cases hyx : key y < key x
    · rw [hstep, if_pos hyx]
      rcases ih y with heq | hmem
      · refine Or.inr ?_
        rw [heq]
        exact List.mem_cons_self _ _
      · exact Or.inr (List.mem_cons_of_mem y hmem)
    · rw [hstep, if_neg hyx]
      rcases ih x with heq | hmem
      · exact Or.inl heq
      · exact Or.inr (List.mem_cons_of_mem y hmem)

/-- Membership in the deduplication helper. -/
theorem mem_pdUniqueAux :
    ∀ (l seen : List Money) (a : Money),
      a ∈ pdUniqueAux l seen ↔ a ∈ l ∧ a ∉ seen := by
  intro l
  induction l with
  | nil =>
    intro seen a
    simp [pdUniqueAux]
  | cons x xs ih =>
    intro seen a
    by_cases hx : x ∈ seen
    · rw [pdUniqueAux, if_pos hx, ih]
      constructor
      · rintro ⟨ha, hna⟩
        exact ⟨List.mem_cons_of_mem x ha, hna⟩
      · rintro ⟨ha, hna⟩
        rcases List.mem_cons.mp ha with rfl | ha
        · exact absurd hx hna
        · exact ⟨ha, hna⟩
    · rw [pdUniqueAux, if_neg hx]
      constructor
      · intro ha
        rcases List.mem_cons.mp ha with rfl | ha
        · exact ⟨List.mem_cons_self a xs, hx⟩
        · obtain ⟨h1, h2⟩ := (ih (x :: seen) a).mp ha
          exact ⟨List.mem_cons_of_mem x h1,
            fun hs => h2 (List.mem_cons_of_mem x hs)⟩
      · rintro ⟨ha, hna⟩
        rcases List.mem_cons.mp ha with rfl | ha
        · exact List.mem_cons_self a _
        · by_cases hax : a = x
          · exact hax ▸ List.mem_cons_self x _
          · exact List.mem_cons_of_mem x ((ih (x :: seen) a).mpr
              ⟨ha, by simp [hax, hna]⟩)

/-- `df['strike'].unique()` has the same members as the strike column. -/
theorem mem_pdUnique (l : List Money) (a : Money) :
    a ∈ pdUnique l ↔ a ∈ l := by
  simp [pdUnique, mem_pdUniqueAux]

/-- On a nonempty strike column, deduplication keeps the head first. -/
theorem pdUnique_cons (x : Money) (xs : List Money) :
    pdUnique (x :: xs) = x :: pdUniqueAux xs [x] := by
  simp [pdUnique, pdUniqueAux]

/-- Claim C1: on every nonempty chain table, `find_atm_strike` returns a
strike of the table whose distance to the spot price is minimal among all
strikes of the table. -/
theorem find_atm_strike_minimizes (df : List OptionRow) (spot : Money)
    (h : df ≠ []) :
    ∃ r, find_atm_strike df spot = some r ∧
      r ∈ df.map OptionRow.strike ∧
      ∀ s ∈ df.map OptionRow.strike, pyAbs (r - spot) ≤ pyAbs (s - spot) := by
  obtain ⟨d, df2, rfl⟩ := List.exists_cons_of_ne_nil h
  rw [find_atm_strike, List.map_cons, pdUnique_cons]
  set key : Money → Money := fun x => pyAbs (x - spot) with hkey
  set tl := pdUniqueAux (df2.map OptionRow.strike) [d.strike] with htl
  refine ⟨pyMinFold key d.strike tl, rfl, ?_, ?_⟩
  · rcases pyMinFold_mem key tl d.strike with heq | hmem
    · rw [heq]
      exact List.mem_cons_self _ _
    · have := (mem_pdUniqueAux (df2.map OptionRow.strike) [d.strike] _).mp hmem
      exact List.mem_cons_of_mem _ this.1
  · intro s hs
    obtain ⟨⟨hb1, hb2⟩, _⟩ := pyMinFold_spec key tl d.strike
    rcases List.mem_cons.mp hs with rfl | hs
    · exact hb1
    · by_cases hsd : s = d.strike
      · exact hsd ▸ hb1
      · exact hb2 s ((mem_pdUniqueAux _ _ s).mpr ⟨hs, by simp [hsd]⟩)

/-- Witness for C1 at the spec's scenario: strikes 90, 95, 100, 105, 110
with spot 101. -/
theorem find_atm_strike_minimizes_witness :
    ∃ r, find_atm_strike dfSpec 101 = some r ∧
      r ∈ dfSpec.map OptionRow.strike ∧
      ∀ s ∈ dfSpec.map OptionRow.strike,
        pyAbs (r - 101) ≤ pyAbs (s - 101) :=
  find_atm_strike_minimizes dfSpec 101 (by decide)

/-- Claim C9: the strike returned by `find_atm_strike` is the
first-encountered minimum of the distinct-strike sequence: every distinct
strike listed before it is at strictly greater distance from the spot. -/
theorem find_atm_strike_first_encountered_min (df : List OptionRow)
    (spot r : Money) (h : find_atm_strike df spot = some r) :
    ∃ pre post, pdUnique (df.map OptionRow.strike) = pre ++ r :: post ∧
      (∀ y ∈ pre, pyAbs (r - spot) < pyAbs (y - spot)) ∧
      ∀ y ∈ pdUnique (df.map OptionRow.strike),
        pyAbs (r - spot) ≤ pyAbs (y - spot) := by
  set key : Money → Money := fun x => pyAbs (x - spot) with hkey
  rcases hu : pdUnique (df.map OptionRow.strike) with _ | ⟨s0, tl⟩
  · rw [find_atm_strike, hu] at h
    exact absurd h (by simp [pyMin])
  · rw [find_atm_strike, hu] at h
    have hr : r = pyMinFold key s0 tl := by
      rw [pyMin] at h
      injection h with h2
      exact h2.symm
    obtain ⟨⟨hb1, hb2⟩, hfirst⟩ := pyMinFold_spec key tl s0
    have hbound : ∀ y ∈ s0 :: tl, key r ≤ key y := by
      intro y hy
      rw [hr]
      rcases List.mem_cons.mp hy with rfl | hy
      · exact hb1
      · exact hb2 y hy
    rcases hfirst with heq | ⟨pre, post, hsplit, hlt, hpre⟩
    · refine ⟨[], tl, ?_, by simp, hbound⟩
      rw [hr, heq, List.nil_append]
    · refine ⟨s0 :: pre, post, ?_, ?_, hbound⟩
      · rw [hr, List.cons_append]
        exact congrArg (List.cons s0) hsplit
      · intro y hy
        rw [hr]
        rcases List.mem_cons.mp hy with rfl | hy
        · exact hlt
        · exact hpre y hy

/-- Witness for C9 at strikes 99 and 103 with spot 101: both are at
distance 2 and the first-listed strike 99 is returned. -/
theorem find_atm_strike_first_encountered_min_witness :
    ∃ pre post, pdUnique (dfTie.map OptionRow.strike) = pre ++ 99 :: post ∧
      (∀ y ∈ pre, pyAbs (99 - 101) < pyAbs (y - 101)) ∧
      ∀ y ∈ pdUnique (dfTie.map OptionRow.strike),
        pyAbs (99 - 101) ≤ pyAbs (y - 101) :=
  find_atm_strike_first_encountered_min dfTie 101 99 (by decide)

/-- No qualifying days in the empty interval `(d, d]`. -/
theorem countQ_self (hol : List Nat) (d : Nat) : countQ hol d d = 0 := by
  simp [countQ]

/-- Peeling the first day off the interval `(d, r]`. -/
theorem countQ_succ_left (hol : List Nat) (d r : Nat) (h : d + 1 ≤ r) :
    countQ hol d r =
      (if qualifies hol (d + 1) then 1 else 0) + countQ hol (d + 1) r := by
  rw [countQ, countQ, show r - d = (r - (d + 1)) + 1 from by omega,
    List.range_succ_eq_map, List.countP_cons, List.countP_map]
  have hfun : ((fun i => qualifies hol (d + 1 + i)) ∘ Nat.succ) =
      fun i => qualifies hol (d + 1 + 1 + i) := by
    funext i
    simp only [Function.comp]
    rw [show d + 1 + Nat.succ i = d + 1 + 1 + i from by omega]
  rw [hfun, show d + 1 + 0 = d + 1 from by omega]
  rcases Bool.eq_false_or_eq_true (qualifies hol (d + 1)) with hq | hq <;>
    simp [hq, Nat.add_comm]

/-- Invariant of the business-day loop: a successful run from state
`(d, c)` with `c ≤ n` ends on a date `r ≥ d` with exactly `n - c`
qualifying days in `(d, r]`; if the loop body never ran (`c = n`) the
start date is returned unchanged, and otherwise the returned date itself
qualifies. -/
theorem gnbdLoop_spec (hol : List Nat) (n : Nat) :
    ∀ fuel d c r, gnbdLoop hol n fuel d c = some r → c ≤ n →
      d ≤ r ∧ countQ hol d r = n - c ∧ (c = n → r = d) ∧
        (c < n → qualifies hol r = true) := by
  intro fuel
  induction fuel with
  | zero =>
    intro d c r hr hcn
    rw [gnbdLoop] at hr
    by_cases hnc : n ≤ c
    · rw [if_pos hnc] at hr
      injection hr with hr2
      subst hr2
      exact ⟨le_refl d, by rw [countQ_self]; omega, fun _ => rfl,
        fun hlt => absurd hlt (by omega)⟩
    · rw [if_neg hnc] at hr
      exact absurd hr (by simp)
  | succ fuel ih =>
    intro d c r hr hcn
    rw [gnbdLoop] at hr
    by_cases hnc : n ≤ c
    · rw [if_pos hnc] at hr
      injection hr with hr2
      subst hr2
      exact ⟨le_refl d, by rw [countQ_self]; omega, fun _ => rfl,
        fun hlt => absurd hlt (by omega)⟩
    · rw [if_neg hnc] at hr
      have hcltn : c < n := by omega
      by_cases hq : qualifies hol (d + 1) = true
      · rw [if_pos hq] at hr
        obtain ⟨hdr, hcount, heq, hqual⟩ := ih (d + 1) (c + 1) r hr (by omega)
        refine ⟨by omega, ?_, fun hceq => absurd hceq (by omega), fun _ => ?_⟩
        · rw [countQ_succ_left hol d r (by omega), if_pos hq, hcount]
          omega
        · by_cases hc1 : c + 1 = n
          · rw [heq hc1]
            exact hq
          · exact hqual (by omega)
      · rw [if_neg hq] at hr
        obtain ⟨hdr, hcount, _, hqual⟩ := ih (d + 1) c r hr hcn
        refine ⟨by omega, ?_, fun hceq => absurd hceq (by omega),
          fun _ => hqual hcltn⟩
        rw [countQ_succ_left hol d r (by omega), if_neg hq, hcount]
        omega

/-- Counterexample to claim C2 as stated: with no holidays, `n = 0` and a
Saturday start (day 5 of the Monday-epoch week), the function returns the
start date itself, which is not a weekday. -/
theorem get_nth_business_day_zero_weekend_cex :
    get_nth_business_day [] 5 0 0 = some 5 ∧ ¬((5 : Nat) % 7 < 5) := by
  decide

/-- Claim C2 (amended): every successful run returns a date with exactly
`n` qualifying increments from the start; for `n = 0` that date is the
start itself (whatever kind of day it is), and for `n ≥ 1` it is a weekday
outside the holiday set. -/
theorem get_nth_business_day_spec (hol : List Nat) (start n fuel r : Nat)
    (h : get_nth_business_day hol start n fuel = some r) :
    countQ hol start r = n ∧ (n = 0 → r = start) ∧
      (1 ≤ n → (r % 7 < 5 ∧ hol.contains r = false)) := by
  obtain ⟨hdr, hcount, heq, hqual⟩ :=
    gnbdLoop_spec hol n fuel start 0 r h (Nat.zero_le n)
  refine ⟨by omega, fun h0 => heq h0.symm, fun h1 => ?_⟩
  have := hqual (by omega)
  rw [qualifies] at this
  simp at this
  exact ⟨this.1, by simp [this.2]⟩

/-- Witness for the amended C2: no Monday start, holiday on day 2; two
business days after day 0 is day 3. -/
theorem get_nth_business_day_spec_witness :
    countQ [2] 0 3 = 2 ∧ ((2 : Nat) = 0 → (3 : Nat) = 0) ∧
      (1 ≤ (2 : Nat) → ((3 : Nat) % 7 < 5 ∧ ([2] : List Nat).contains 3 = false)) :=
  get_nth_business_day_spec [2] 0 2 10 3 (by decide)

/-- Every element of a `Nat` list is at most its `foldr max 0`. -/
theorem le_foldr_max : ∀ (l : List Nat) (x : Nat), x ∈ l →
    x ≤ l.foldr max 0 := by
  intro l
  induction l with
  | nil =>
    intro x hx
    exact absurd hx (by simp)
  | cons a l2 ih =>
    intro x hx
    rcases List.mem_cons.mp hx with rfl | hx
    · exact le_max_left _ _
    · exact le_trans (ih x hx) (le_max_right _ _)

/-- Past every listed holiday there is always another qualifying day. -/
theorem exists_qualifying_above (hol : List Nat) (d : Nat) :
    ∃ s, d < s ∧ qualifies hol s = true := by
  set b := max (d + 1) (hol.foldr max 0 + 1) with hb
  refine ⟨b + (7 - b % 7) % 7, by omega, ?_⟩
  rw [qualifies]
  have hmod : (b + (7 - b % 7) % 7) % 7 = 0 := by omega
  have hnotmem : b + (7 - b % 7) % 7 ∉ hol := by
    intro hmem
    have := le_foldr_max hol _ hmem
    omega
  simp [hmod, hnotmem]

/-- If some day `d + 1 + s` qualifies and every continuation from the next
count value succeeds, the loop succeeds from `(d, c)` with enough fuel. -/
theorem gnbd_step (hol : List Nat) (n : Nat) :
    ∀ s d c, c < n → qualifies hol (d + 1 + s) = true →
      (∀ d2, ∃ fuel r, gnbdLoop hol n fuel d2 (c + 1) = some r) →
      ∃ fuel r, gnbdLoop hol n fuel d c = some r := by
  intro s
  induction s with
  | zero =>
    intro d c hcn hq hnext
    obtain ⟨fuel, r, hr⟩ := hnext (d + 1)
    refine ⟨fuel + 1, r, ?_⟩
    have hq1 : qualifies hol (d + 1) = true := hq
    rw [gnbdLoop, if_neg (show ¬n ≤ c from by omega), if_pos hq1]
    exact hr
  | succ s ih =>
    intro d c hcn hq hnext
    by_cases hq1 : qualifies hol (d + 1) = true
    · obtain ⟨fuel, r, hr⟩ := hnext (d + 1)
      refine ⟨fuel + 1, r, ?_⟩
      rw [gnbdLoop, if_neg (show ¬n ≤ c from by omega), if_pos hq1]
      exact hr
    · have hq2 : qualifies hol (d + 1 + 1 + s) = true := by
        rw [show d + 1 + 1 + s = d + 1 + (s + 1) from by omega]
        exact hq
      obtain ⟨fuel, r, hr⟩ := ih (d + 1) c hcn hq2 hnext
      refine ⟨fuel + 1, r, ?_⟩
      rw [gnbdLoop, if_neg (show ¬n ≤ c from by omega), if_neg hq1]
      exact hr

/-- From any state whose remaining count is at most `k`, the loop can
succeed with enough fuel. -/
theorem gnbd_all (hol : List Nat) (n : Nat) :
    ∀ k c, n - c ≤ k → ∀ d, ∃ fuel r, gnbdLoop hol n fuel d c = some r := by
  intro k
  induction k with
  | zero =>
    intro c hc d
    exact ⟨0, d, by rw [gnbdLoop, if_pos (show n ≤ c from by omega)]⟩
  | succ k ih =>
    intro c hc d
    by_cases hnc : n ≤ c
    · exact ⟨0, d, by rw [gnbdLoop, if_pos hnc]⟩
    · obtain ⟨s, hds, hq⟩ := exists_qualifying_above hol d
      have hq2 : qualifies hol (d + 1 + (s - d - 1)) = true := by
        rw [show d + 1 + (s - d - 1) = s from by omega]
        exact hq
      exact gnbd_step hol n (s - d - 1) d c (by omega) hq2
        (fun d2 => ih (c + 1) (by omega) d2)

/-- Claim C10: for every holiday list, start date and count, some fuel
makes the business-day loop terminate with a result (qualifying days keep
occurring because the holiday set is finite). -/
theorem get_nth_business_day_terminates (hol : List Nat) (start n : Nat) :
    ∃ fuel r, get_nth_business_day hol start n fuel = some r :=
  gnbd_all hol n n 0 (by omega) start

end Opstrat
